import Mathlib

/-!
Shallow embedding of the gowsdl generator (files `cmd/gowsdl/main.go` and the
package file containing `Start`, `resolveXSDExternals`, `toGoType`,
`normalize`, `replaceReservedWords`, `makePublic`, `findType`,
`formattaCodice`), with proofs about collision renaming, external-schema
resolution, type mapping, identifier sanitization and the lookup helpers.

Modelling conventions, shared by all definitions below:
* Go strings are Lean `String`s (a `String` is a list of `Char`s).
* A Go `map[string]T` is modelled either as an association list looked up
  with the zero value of `T` as default (exactly Go's lookup semantics), or,
  where the map is threaded through a loop, as a function updated pointwise;
  `delete` then sets a key back to the default, which is what a missing key
  reads as in Go.
* Character classes (`unicode.IsLetter`, `unicode.IsDigit`, `unicode.ToUpper`,
  `strings.EqualFold`) are modelled on ASCII; every table entry and every
  concrete input used below is ASCII.
* Byte slices (`[]byte`) are modelled as `String`s; `go/format.Source` and
  `ParseLocation` (whose sources are outside the embedded files) are
  abstract function parameters.
-/

namespace Gowsdl

/-- Auxiliary recursion for Go `strings.Split` with a one-character
separator: walks the character list, `acc` holds the current segment
reversed. -/
def splitAux (sep : Char) : List Char → List Char → List (List Char)
  | [], acc => [acc.reverse]
  | c :: cs, acc =>
    if c = sep then acc.reverse :: splitAux sep cs []
    else splitAux sep cs (c :: acc)

/-- Go `strings.Split(s, string(sep))`. -/
def goSplit (s : String) (sep : Char) : List String :=
  (splitAux sep s.data []).map String.mk

/-- Go map lookup `m[k]` for a `map[string]string`, returning the zero value
`""` when the key is absent. -/
def mapGetD : List (String × String) → String → String
  | [], _ => ""
  | (a, b) :: rest, k => if k = a then b else mapGetD rest k

/-- Membership of a key in a `map[string]string` (the `_, exists := m[k]`
idiom). -/
def mapHasKey (m : List (String × String)) (k : String) : Bool :=
  m.any (fun p => p.1 = k)

/-- Go `strings.ToLower` (ASCII model). -/
def lowerStr (s : String) : String :=
  String.mk (s.data.map Char.toLower)

/-- Go `strings.EqualFold` (ASCII model: case-insensitive equality). -/
def eqFold (a b : String) : Bool :=
  lowerStr a = lowerStr b

/-- Go `unicode.IsSpace` restricted to ASCII whitespace. -/
def goIsSpace (c : Char) : Bool :=
  c = ' ' ∨ c = '\t' ∨ c = '\n' ∨ c = '\r'

/-- Go `strings.TrimSpace` (ASCII whitespace model). -/
def trimStr (s : String) : String :=
  String.mk (((s.data.dropWhile goIsSpace).reverse.dropWhile goIsSpace).reverse)

/-- The `reservedWords` table: Go keywords mapped to their escaped
replacements. -/
def reservedWords : List (String × String) :=
  [("break", "break_"), ("default", "default_"), ("func", "func_"),
   ("interface", "interface_"), ("select", "select_"), ("case", "case_"),
   ("defer", "defer_"), ("go", "go_"), ("map", "map_"),
   ("struct", "struct_"), ("chan", "chan_"), ("else", "else_"),
   ("goto", "goto_"), ("package", "package_"), ("switch", "switch_"),
   ("const", "const_"), ("fallthrough", "fallthrough_"), ("if", "if_"),
   ("range", "range_"), ("type", "type_"), ("continue", "continue_"),
   ("for", "for_"), ("import", "import_"), ("return", "return_"),
   ("var", "var_")]

/-- The `reservedWordsInAttr` table: the same keywords plus `string`, which
collides with a generated helper type in attribute context. -/
def reservedWordsInAttr : List (String × String) :=
  reservedWords ++ [("string", "astring")]

/-- The two `specialCharacterMapping` replacements of `normalize`, applied
characterwise: `+` becomes `Plus` and `@` becomes `At`.  The Go code runs
`strings.ReplaceAll` once per map entry in nondeterministic map order; since
neither replacement string contains `+` or `@` the two orders agree, and
both equal this single characterwise pass. -/
def expandSpecial (c : Char) : List Char :=
  if c = '+' then ['P', 'l', 'u', 's']
  else if c = '@' then ['A', 't']
  else [c]

/-- The rune mapping of `normalize`: `.` and `-` become `_`, letters, digits
and `_` are kept, everything else is dropped (`strings.Map` drops a rune
when the mapping returns a negative value). -/
def goMapRune (c : Char) : Option Char :=
  if c = '.' ∨ c = '-' then some '_'
  else if c.isAlpha ∨ c.isDigit ∨ c = '_' then some c
  else none

/-- `normalize`: sanitizes a value into a legal Go identifier. -/
def normalize (value : String) : String :=
  String.mk (((value.data.flatMap expandSpecial).filterMap goMapRune))

/-- `replaceReservedWords`: replaces Go reserved keywords, otherwise
normalizes. -/
def replaceReservedWords (identifier : String) : String :=
  let value := mapGetD reservedWords identifier
  if value ≠ "" then value else normalize identifier

/-- `replaceAttrReservedWords`: the attribute-context variant. -/
def replaceAttrReservedWords (identifier : String) : String :=
  let value := mapGetD reservedWordsInAttr identifier
  if value ≠ "" then value else normalize identifier

/-- The `basicTypes` table of already-canonical Go type spellings (including
the misspelt `uinit64` entry, faithfully). -/
def basicTypes : List (String × String) :=
  [("string", "string"), ("float32", "float32"), ("float64", "float64"),
   ("int", "int"), ("int8", "int8"), ("int16", "int16"),
   ("int32", "int32"), ("int64", "int64"), ("bool", "bool"),
   ("time.Time", "time.Time"), ("[]byte", "[]byte"), ("byte", "byte"),
   ("uint16", "uint16"), ("uint32", "uint32"), ("uinit64", "uint64"),
   ("interface\x7b\x7d", "interface\x7b\x7d")]

/-- `isBasicType`: key-existence test on `basicTypes`. -/
def isBasicType (identifier : String) : Bool :=
  mapHasKey basicTypes identifier

/-- `makePublic`: upper-cases the leading rune, passing basic-type spellings
through unchanged and mapping the empty identifier to `EmptyString`. -/
def makePublic (identifier : String) : String :=
  if isBasicType identifier then identifier
  else if identifier = "" then "EmptyString"
  else
    match identifier.data with
    | [] => identifier
    | c :: cs => String.mk (Char.toUpper c :: cs)

/-- `makePrivate`: lower-cases the leading rune. -/
def makePrivate (identifier : String) : String :=
  match identifier.data with
  | [] => identifier
  | c :: cs => String.mk (Char.toLower c :: cs)

/-- The `xsd2GoTypes` table mapping lower-cased schema primitive names to Go
types. -/
def xsd2GoTypes : List (String × String) :=
  [("string", "string"), ("token", "string"), ("float", "float32"),
   ("double", "float64"), ("decimal", "float64"), ("integer", "int32"),
   ("int", "int32"), ("short", "int16"), ("byte", "int8"),
   ("long", "int64"), ("boolean", "bool"), ("datetime", "string"),
   ("date", "string"), ("time", "string"), ("base64binary", "[]byte"),
   ("hexbinary", "[]byte"), ("unsignedint", "uint32"),
   ("nonnegativeinteger", "uint32"), ("unsignedshort", "uint16"),
   ("unsignedbyte", "byte"), ("unsignedlong", "uint64"),
   ("anytype", "AnyType"), ("ncname", "NCName"), ("anyuri", "AnyURI"),
   ("sdpstring", "string"), ("sdpboolean", "bool"), ("sdpbyte", "int8"),
   ("sdpbigdecimal", "float64"), ("sdplong", "int64"),
   ("sdpinteger", "int32"), ("sdpbiginteger", "int32"),
   ("sdpfloat", "float32"), ("sdpdouble", "float64"),
   ("sdpshort", "int16"), ("sdpdate", "string"), ("sdptime", "string"),
   ("sdpdatetime", "string"), ("timestamp", "int64")]

/-- Namespace stripping as done inline by `toGoType` and by `stripns` and
`removeNS`: split on `:`, take the second component when there are exactly
two, the first otherwise. -/
def stripns (xsdType : String) : String :=
  let r := goSplit xsdType ':'
  if r.length = 2 then r.getD 1 "" else r.getD 0 ""

/-- `toGoType`: strips the namespace, looks the lower-cased name up in
`xsd2GoTypes` (prefixing `*` when the element is nillable), and otherwise
returns a pointer to the sanitized public identifier. -/
def toGoType (xsdType : String) (nillable : Bool) : String :=
  let t := stripns xsdType
  let value := mapGetD xsd2GoTypes (lowerStr t)
  if value ≠ "" then
    if nillable then "*" ++ value else value
  else
    "*" ++ replaceReservedWords (makePublic t)

/-- The transform the C5 claim describes for the generic branch of
`makePublic`: upper-case the leading character of the identifier. -/
def upperFirst : List Char → List Char
  | [] => []
  | c :: cs => Char.toUpper c :: cs

/-- Modelled from the spec (§3): `XSDComplexType` of the document model
(`xsd.go` is not among the embedded sources; only its name field matters to
the collision resolver, and per the spec names are mutable in place, i.e.
the schemas hold the renamed value afterwards). -/
structure XSDComplexType where
  name : String
  deriving DecidableEq

/-- Modelled from the spec (§3): `XSDSimpleType` of the document model. -/
structure XSDSimpleType where
  name : String
  deriving DecidableEq

/-- Modelled from the spec (§3): an `XSDElement` with its name and its
(schema-qualified) declared type reference. -/
structure XSDElement where
  name : String
  typ : String
  deriving DecidableEq

/-- Modelled from the spec (§3): an `XSDSchema` with its target namespace
and its ordered complex types, simple types and elements (imports and
includes are modelled separately for the resolver). -/
structure XSDSchema where
  targetNamespace : String
  complexTypes : List XSDComplexType
  simpleTypes : List XSDSimpleType
  elements : List XSDElement
  deriving DecidableEq

/-- A WSDL message part (`Name`, `Element`, `Type`). -/
structure WSDLPart where
  name : String
  element : String
  typ : String
  deriving DecidableEq

/-- A WSDL message: name and ordered parts. -/
structure WSDLMessage where
  name : String
  parts : List WSDLPart
  deriving DecidableEq

/-- The slice of the parsed WSDL that `Start` and `findType` read: the
messages and the merged schema collection (`wsdl.Types.Schemas`). -/
structure WSDL where
  messages : List WSDLMessage
  schemas : List XSDSchema
  deriving DecidableEq

/-- The mutable state threaded by the collision-resolution step of `Start`:
the `seen` occurrence-count map and the `resolveCollisions` map, both Go
maps modelled as functions (`seen` reads `0` for absent keys, the collision
map reads `none`). -/
structure CollState where
  seen : String → Nat
  colls : String → Option String

/-- Pointwise update of a `map[string]int`. -/
def updN (m : String → Nat) (k : String) (v : Nat) : String → Nat :=
  fun x => if x = k then v else m x

/-- Pointwise update of the collision `map[string]string` (`none` = absent). -/
def updS (m : String → Option String) (k : String) (v : String) :
    String → Option String :=
  fun x => if x = k then some v else m x

/-- The first counting loop of `Start`: `seen[name]++` over a list of type
names. -/
def bumpSeen (m : String → Nat) (names : List String) : String → Nat :=
  names.foldl (fun acc nm => updN acc nm (acc nm + 1)) m

/-- The full counting pass of `Start`: per schema, complex types first, then
simple types. -/
def seenCount (schemas : List XSDSchema) : String → Nat :=
  schemas.foldl
    (fun acc s =>
      bumpSeen (bumpSeen acc (s.complexTypes.map XSDComplexType.name))
        (s.simpleTypes.map XSDSimpleType.name))
    (fun _ => 0)

/-- The filtering loop of `Start`: `delete(seen, k)` for every count below 2;
a deleted key subsequently reads as `0`. -/
def seenFiltered (schemas : List XSDSchema) : String → Nat :=
  fun nm => if seenCount schemas nm < 2 then 0 else seenCount schemas nm

/-- The renaming loop of `Start` over the complex types of one schema:
when `seen[name] > 0` the type is renamed to `name ++ count`, the
collision-map entry `namespace ++ "/" ++ name` is written and the counter
is decremented. -/
def renameCTs (ns : String) : CollState → List XSDComplexType →
    CollState × List XSDComplexType
  | st, [] => (st, [])
  | st, ct :: rest =>
    let num := st.seen ct.name
    if 0 < num then
      let org := ct.name
      let upd := org ++ Nat.repr num
      let st1 : CollState :=
        ⟨updN st.seen org (num - 1), updS st.colls (ns ++ "/" ++ org) upd⟩
      let r := renameCTs ns st1 rest
      (r.1, ⟨upd⟩ :: r.2)
    else
      let r := renameCTs ns st rest
      (r.1, ct :: r.2)

/-- The renaming loop of `Start` over the simple types of one schema. -/
def renameSTs (ns : String) : CollState → List XSDSimpleType →
    CollState × List XSDSimpleType
  | st, [] => (st, [])
  | st, ty :: rest =>
    let num := st.seen ty.name
    if 0 < num then
      let org := ty.name
      let upd := org ++ Nat.repr num
      let st1 : CollState :=
        ⟨updN st.seen org (num - 1), updS st.colls (ns ++ "/" ++ org) upd⟩
      let r := renameSTs ns st1 rest
      (r.1, ⟨upd⟩ :: r.2)
    else
      let r := renameSTs ns st rest
      (r.1, ty :: r.2)

/-- The outer renaming loop of `Start`: schemas in order, complex types of a
schema before its simple types. -/
def renameSchemas : CollState → List XSDSchema → CollState × List XSDSchema
  | st, [] => (st, [])
  | st, s :: rest =>
    let rc := renameCTs s.targetNamespace st s.complexTypes
    let rs := renameSTs s.targetNamespace rc.1 s.simpleTypes
    let rr := renameSchemas rs.1 rest
    (rr.1, { s with complexTypes := rc.2, simpleTypes := rs.2 } :: rr.2)

/-- The whole collision-resolution step of `Start`: count, filter, rename. -/
def resolveCollisionsPass (schemas : List XSDSchema) :
    CollState × List XSDSchema :=
  renameSchemas ⟨seenFiltered schemas, fun _ => none⟩ schemas

/-- The (namespace, name) occurrences of one schema in the traversal order of
`Start`: complex types first, then simple types. -/
def schemaOccs (s : XSDSchema) : List (String × String) :=
  s.complexTypes.map (fun c => (s.targetNamespace, c.name)) ++
    s.simpleTypes.map (fun t => (s.targetNamespace, t.name))

/-- All (namespace, name) occurrences of the schema collection in traversal
order. -/
def occsOf (schemas : List XSDSchema) : List (String × String) :=
  schemas.flatMap schemaOccs

/-- Occurrence count of a type name in an occurrence list. -/
def countName (nm : String) (l : List (String × String)) : Nat :=
  (l.map Prod.snd).count nm

/-- The collision-map key of an occurrence, as built by `Start` with
`fmt.Sprintf`. -/
def keyOf (p : String × String) : String :=
  p.1 ++ "/" ++ p.2

/-- The renaming loop of `Start` flattened over the occurrence list: the
abstraction on which the renaming lemmas are proved; `renameSchemas` is
shown to agree with it. -/
def renameSeq : CollState → List (String × String) →
    CollState × List (String × String)
  | st, [] => (st, [])
  | st, p :: rest =>
    let num := st.seen p.2
    if 0 < num then
      let upd := p.2 ++ Nat.repr num
      let st1 : CollState :=
        ⟨updN st.seen p.2 (num - 1), updS st.colls (keyOf p) upd⟩
      let r := renameSeq st1 rest
      (r.1, (p.1, upd) :: r.2)
    else
      let r := renameSeq st rest
      (r.1, p :: r.2)

/-- Modelled from the spec (§4.3): the Type Graph Traverser (`traverser.go`
is not among the embedded sources, only its call sites in `Start` and
`findNameByType` are).  It visits every element declaration and rewrites any
type reference whose (namespace, name) pair appears in the collision map
to the recorded new name; a reference's namespace is its schema's target
namespace and the map is keyed `namespace/name` exactly as written by
`Start`. -/
def traverseSchema (colls : String → Option String) (s : XSDSchema) :
    XSDSchema :=
  { s with
    elements := s.elements.map (fun e =>
      match colls (s.targetNamespace ++ "/" ++ e.typ) with
      | some u => { e with typ := u }
      | none => e) }

/-- The traverser pass of `Start`: each schema is traversed against the full
collision map. -/
def traverseAll (colls : String → Option String)
    (schemas : List XSDSchema) : List XSDSchema :=
  schemas.map (traverseSchema colls)

/-- The collision-resolution phase of `Start` followed by the traverser
pass, returning the final collision map and the rewritten schemas. -/
def startCollisionPhase (schemas : List XSDSchema) :
    (String → Option String) × List XSDSchema :=
  let r := resolveCollisionsPass schemas
  (r.1.colls, traverseAll r.1.colls r.2)

/-- The inner element scan of `findType`: first element (schemas in order,
elements in order) whose name matches the reference case-insensitively; its
stripped declared type is returned, or its own name when it declares no
type. -/
def findInElems (elRef : String) : List XSDElement → Option String
  | [] => none
  | el :: rest =>
    if eqFold elRef el.name then
      some (if el.typ ≠ "" then stripns el.typ else el.name)
    else findInElems elRef rest

/-- The schema loop around `findInElems`. -/
def findInSchemas (elRef : String) : List XSDSchema → Option String
  | [] => none
  | s :: rest =>
    match findInElems elRef s.elements with
    | some r => some r
    | none => findInSchemas elRef rest

/-- The message loop of `findType`: non-matching messages and matching
messages without parts are skipped (the latter with a logged warning); a
matching message's first part yields its stripped type when one is declared,
otherwise the part's element reference is resolved; when that also fails the
loop continues, and exhaustion yields `""`. -/
def findTypeLoop (schemas : List XSDSchema) (key : String) :
    List WSDLMessage → String
  | [] => ""
  | msg :: rest =>
    if msg.name ≠ key then findTypeLoop schemas key rest
    else
      match msg.parts with
      | [] => findTypeLoop schemas key rest
      | part :: _ =>
        if part.typ ≠ "" then stripns part.typ
        else
          match findInSchemas (stripns part.element) schemas with
          | some r => r
          | none => findTypeLoop schemas key rest

/-- `findType`: strips the namespace from the message name and runs the
message loop. -/
def findType (wsdl : WSDL) (message : String) : String :=
  findTypeLoop wsdl.schemas (stripns message) wsdl.messages

/-- The configuration `NewGoWSDL` builds on success (the generator value
before any fetch happens). -/
structure GoWSDLInit where
  loc : String
  pkg : String
  ignoreTLS : Bool
  exportAllTypes : Bool
  deriving DecidableEq

/-- `NewGoWSDL`: trims the WSDL location (an empty one is an error), trims
the package name (an empty one is replaced by `generated_from_wsdl`), and
parses the location.  `ParseLocation` lives outside the embedded sources and
is passed in abstractly as `parseLoc`; it is pure (no network). -/
def NewGoWSDL (parseLoc : String → Except String String)
    (file pkg : String) (ignoreTLS exportAllTypes : Bool) :
    Except String GoWSDLInit :=
  let file := trimStr file
  if file = "" then
    .error "WSDL file is required to generate Go proxy"
  else
    let pkg := trimStr pkg
    let pkg := if pkg = "" then "generated_from_wsdl" else pkg
    match parseLoc file with
    | .error e => .error e
    | .ok r => .ok ⟨r, pkg, ignoreTLS, exportAllTypes⟩

/-- Outcome of the input-validation prefix of `main`: either the run aborts
(usage message, `log.Fatalln`, or a `NewGoWSDL` error — all before any
network activity, which first happens inside `Start`), or it proceeds into
`Start` with the built configuration. -/
inductive RunOutcome where
  | aborted (msg : String)
  | proceeded (g : GoWSDLInit)
  deriving DecidableEq

/-- The input-validation prefix of `main` (everything before
`gowsdl.Start()`, which is where fetching begins): checks the argument
count, takes the last argument as the WSDL path, refuses an output file
equal to the WSDL path, and calls `NewGoWSDL`. -/
def mainFlow (parseLoc : String → Except String String)
    (args : List String) (outFile pkg : String)
    (ignoreTLS exportAllTypes : Bool) : RunOutcome :=
  if args.length < 2 then .aborted "usage"
  else
    let wsdlPath := args.getLastD ""
    if outFile = wsdlPath then
      .aborted "Il file di output non puo essere lo stesso del file WSDL"
    else
      match NewGoWSDL parseLoc wsdlPath pkg ignoreTLS exportAllTypes with
      | .error e => .aborted e
      | .ok g => .proceeded g

/-- A schema as seen by `resolveXSDExternals`: its import references (an
import's `SchemaLocation` may be empty, modelled as `none`, and is then
skipped with a warning) and its include references.  Locations are drawn
from a finite universe `Fin n` of absolute locations; `Location.Parse`
(outside the embedded sources) is the world's absolutization and is folded
into these fields. -/
structure SchemaRefs (n : Nat) where
  imports : List (Option (Fin n))
  includes : List (Fin n)

/-- The world of an external-resolution run: what fetching and unmarshalling
a location yields. -/
structure RWorld (n : Nat) where
  fetch : Fin n → SchemaRefs n

/-- The state threaded by `resolveXSDExternals`: the `resolvedXSDExternals`
set, the trace of fetched locations, and the locations appended to
`wsdl.Types.Schemas` (in order). -/
structure RState (n : Nat) where
  resolved : Finset (Fin n)
  fetched : List (Fin n)
  appended : List (Fin n)

/-- The reference list a schema hands to the resolver, in source order:
imports with a non-empty location first, then includes. -/
def refsOf {n : Nat} (sch : SchemaRefs n) : List (Fin n) :=
  sch.imports.filterMap id ++ sch.includes

mutual

/-- The `download` closure of `resolveXSDExternals`: skip an
already-resolved location, otherwise mark it resolved, fetch and unmarshal
it, recurse when the fetched schema has further imports or includes, and
append it to the schema collection.  Recursion is bounded by `fuel`
(`none` = fuel exhausted); the code itself has no depth bound and the
termination theorem shows fuel `n + 1` always suffices. -/
def downloadF {n : Nat} (w : RWorld n) : Nat → RState n → Fin n →
    Option (RState n)
  | 0, _, _ => none
  | fuel + 1, st, ref =>
    if ref ∈ st.resolved then some st
    else
      let st1 : RState n :=
        ⟨insert ref st.resolved, st.fetched ++ [ref], st.appended⟩
      let sch := w.fetch ref
      match (if 0 < sch.includes.length ∨ 0 < sch.imports.length then
               resolveListF w fuel (refsOf sch) st1
             else some st1) with
      | none => none
      | some st2 => some ⟨st2.resolved, st2.fetched, st2.appended ++ [ref]⟩
termination_by fuel _ _ => (fuel, 0)

/-- The reference loop of `resolveXSDExternals`: download each reference in
order, propagating failure. -/
def resolveListF {n : Nat} (w : RWorld n) : Nat → List (Fin n) → RState n →
    Option (RState n)
  | _, [], st => some st
  | fuel, r :: rs, st =>
    match downloadF w fuel st r with
    | none => none
    | some st1 => resolveListF w fuel rs st1
termination_by fuel rs _ => (fuel, rs.length + 1)

end

/-- `resolveXSDExternals` on one schema: its references, in order, through
the download loop. -/
def resolveXSDExternalsF {n : Nat} (w : RWorld n) (fuel : Nat)
    (sch : SchemaRefs n) (st : RState n) : Option (RState n) :=
  resolveListF w fuel (refsOf sch) st

/-- The initial resolver state: nothing resolved, fetched or appended. -/
def initRState (n : Nat) : RState n := ⟨∅, [], []⟩

/-- Relation between the states at entry and exit of a successful resolver
call: the resolved set only grows; the fetch trace and the append trace are
extended by batches holding the same locations, without duplicates; every
batch member was unresolved at entry; the resolved set grows by exactly the
batch; and every batch member's own references are resolved at exit. -/
def RInv {n : Nat} (w : RWorld n) (st st2 : RState n) : Prop :=
  st.resolved ⊆ st2.resolved ∧
  ∃ da df : List (Fin n),
    st2.appended = st.appended ++ da ∧
    st2.fetched = st.fetched ++ df ∧
    da.Nodup ∧ df.Nodup ∧
    (∀ l, l ∈ da ↔ l ∈ df) ∧
    (∀ l ∈ da, l ∉ st.resolved) ∧
    st2.resolved = st.resolved ∪ da.toFinset ∧
    (∀ l ∈ da, ∀ r ∈ refsOf (w.fetch l), r ∈ st2.resolved)

/-- `formattaCodice`: concatenates the artifact byte slices and runs them
through the canonical formatter (`go/format.Source`, abstracted as the
parameter `fmtSrc`); on formatter failure the unformatted concatenation is
returned (the failure is only logged). -/
def formattaCodice (fmtSrc : String → Except String String)
    (parts : List String) : String :=
  let data := parts.foldl (fun b part => b ++ part) ""
  match fmtSrc data with
  | .error _ => data
  | .ok codiceFormattato => codiceFormattato

/-- Decimal read-back of a digit list, used to show that the suffixes
`fmt.Sprintf("%s%d", ...)` appends are injective in the count. -/
def readNat (l : List Char) : Nat :=
  l.foldl (fun a c => 10 * a + (c.toNat - 48)) 0

/-- A `ParseLocation` model that accepts every location verbatim (as the
real one does on any well-formed path). -/
def parseOk : String → Except String String := fun s => .ok s

/-- Concrete schema collection for the C2 counterexample: a twice-declared
`Item` next to a once-declared `Item2`, plus an element referencing
`Item`. -/
def cexSchemas : List XSDSchema :=
  [⟨"ns", [⟨"Item"⟩, ⟨"Item"⟩, ⟨"Item2"⟩], [], [⟨"el", "Item"⟩]⟩]

/-- Concrete schema collection for the C1/C2 witnesses: `Item` declared in
two different namespaces, the second schema holding an element typed
`Item`. -/
def twoNsSchemas : List XSDSchema :=
  [⟨"ns1", [⟨"Item"⟩], [], []⟩, ⟨"ns2", [⟨"Item"⟩], [], [⟨"el", "Item"⟩]⟩]

/-- Concrete WSDL for the C9 witness: one message whose first part declares
a type directly, and one whose part resolves through an element. -/
def wsdlW : WSDL :=
  ⟨[⟨"InMsg", [⟨"p", "", "tns:InBody"⟩]⟩,
    ⟨"OutMsg", [⟨"p", "tns:OutEl", ""⟩]⟩],
   [⟨"ns", [], [], [⟨"OutEl", "tns:OutBody"⟩]⟩]⟩

/-- The configuration the C7 counterexample run ends up proceeding with. -/
def cexMainCfg : GoWSDLInit := ⟨"svc.wsdl", "generated_from_wsdl", false, true⟩

/-- Concrete cyclic two-location world for the C6 witness: location 0
includes location 1 and location 1 includes location 0. -/
def cycWorld : RWorld 2 :=
  ⟨fun i => if i = 0 then ⟨[], [1]⟩ else ⟨[], [0]⟩⟩

/-- The names the renaming rule assigns to the occurrences of an original
name: the name itself when it occurs fewer than twice, otherwise the name
with each decimal suffix from 1 to its occurrence count. -/
def finalNamesOf (occs : List (String × String)) (nm : String) : List String :=
  if 2 ≤ countName nm occs then
    (List.range (countName nm occs)).map (fun k => nm ++ Nat.repr (k + 1))
  else [nm]

/-! ## Helper lemmas -/

theorem data_append (a b : String) : (a ++ b).data = a.data ++ b.data := by
  cases a; cases b; rfl

theorem mk_data (s : String) : String.mk s.data = s := by
  cases s; rfl

theorem append_right_inj (s : String) {a b : String} (h : s ++ a = s ++ b) :
    a = b := by
  have hd : s.data ++ a.data = s.data ++ b.data := by
    rw [← data_append, ← data_append, h]
  cases a; cases b
  exact congrArg String.mk (List.append_cancel_left hd)

theorem toDigitsCore_acc (fuel n : Nat) (acc : List Char) :
    Nat.toDigitsCore 10 fuel n acc = Nat.toDigitsCore 10 fuel n [] ++ acc := by
  induction fuel generalizing n acc with
  | zero => simp [Nat.toDigitsCore]
  | succ f ih =>
    simp only [Nat.toDigitsCore]
    by_cases h : n / 10 = 0
    · simp [h]
    · simp only [h, if_neg, ite_false]
      rw [ih (n / 10) (Nat.digitChar (n % 10) :: acc),
        ih (n / 10) [Nat.digitChar (n % 10)]]
      simp

theorem toDigitsCore_fuel (n : Nat) :
    ∀ f g : Nat, n < f → n < g →
      Nat.toDigitsCore 10 f n [] = Nat.toDigitsCore 10 g n [] := by
  induction n using Nat.strong_induction_on with
  | _ n ih =>
    intro f g hf hg
    match f, g with
    | f + 1, g + 1 =>
      simp only [Nat.toDigitsCore]
      by_cases h : n / 10 = 0
      · simp [h]
      · simp only [h, ite_false]
        rw [toDigitsCore_acc, toDigitsCore_acc g]
        have hlt : n / 10 < n := by omega
        rw [ih (n / 10) hlt f g (by omega) (by omega)]

theorem digitChar_toNat {k : Nat} (h : k < 10) :
    (Nat.digitChar k).toNat - 48 = k := by
  interval_cases k <;> rfl

theorem readNat_append (l : List Char) (c : Char) :
    readNat (l ++ [c]) = 10 * readNat l + (c.toNat - 48) := by
  simp [readNat, List.foldl_append]

theorem readNat_toDigits (n : Nat) : readNat (Nat.toDigits 10 n) = n := by
  induction n using Nat.strong_induction_on with
  | _ n ih =>
    simp only [Nat.toDigits, Nat.toDigitsCore]
    by_cases h : n / 10 = 0
    · simp only [h, ite_true]
      have hn : n % 10 = n := by omega
      simp [readNat, hn, digitChar_toNat (by omega : n < 10)]
    · simp only [h, ite_false]
      rw [toDigitsCore_acc]
      have hlt : n / 10 < n := by omega
      rw [toDigitsCore_fuel (n / 10) n (n / 10 + 1) (by omega) (by omega)]
      rw [readNat_append]
      rw [show Nat.toDigitsCore 10 (n / 10 + 1) (n / 10) [] =
            Nat.toDigits 10 (n / 10) from rfl]
      rw [ih (n / 10) hlt, digitChar_toNat (by omega : n % 10 < 10)]
      omega

theorem natRepr_inj {a b : Nat} (h : Nat.repr a = Nat.repr b) : a = b := by
  have hd : (Nat.repr a).data = (Nat.repr b).data := by rw [h]
  have ha : (Nat.repr a).data = Nat.toDigits 10 a := rfl
  have hb : (Nat.repr b).data = Nat.toDigits 10 b := rfl
  have := congrArg readNat (ha ▸ hb ▸ hd)
  rwa [readNat_toDigits, readNat_toDigits] at this

theorem suffix_ne {nm : String} {a b : Nat} (h : a ≠ b) :
    nm ++ Nat.repr a ≠ nm ++ Nat.repr b := by
  intro he
  exact h (natRepr_inj (append_right_inj nm he))

theorem mapGetD_of_not_mem {m : List (String × String)} {k : String}
    (h : ∀ p ∈ m, k ≠ p.1) : mapGetD m k = "" := by
  induction m with
  | nil => rfl
  | cons p rest ih =>
    simp only [mapGetD]
    rw [if_neg (h p (by simp))]
    exact ih (fun q hq => h q (by simp [hq]))

theorem char_safe_ne {c : Char} (h : c.isAlpha ∨ c.isDigit ∨ c = '_') :
    c ≠ '+' ∧ c ≠ '@' ∧ c ≠ '.' ∧ c ≠ '-' := by
  refine ⟨?_, ?_, ?_, ?_⟩ <;> rintro rfl <;> rcases h with h | h | h <;>
    revert h <;> decide

theorem normalize_chars (l : List Char)
    (hl : ∀ c ∈ l, c.isAlpha ∨ c.isDigit ∨ c = '_') :
    (l.flatMap expandSpecial).filterMap goMapRune = l := by
  induction l with
  | nil => rfl
  | cons c cs ih =>
    have hc := hl c (by simp)
    obtain ⟨h1, h2, h3, h4⟩ := char_safe_ne hc
    have he : expandSpecial c = [c] := by simp [expandSpecial, h1, h2]
    have hg : goMapRune c = some c := by
      unfold goMapRune
      rw [if_neg (fun hor => hor.elim h3 h4), if_pos hc]
    have hrest := ih (fun d hd => hl d (by simp [hd]))
    simp [List.flatMap_cons, he, hg, hrest]

theorem normalize_of_safe {s : String}
    (h : ∀ c ∈ s.data, c.isAlpha ∨ c.isDigit ∨ c = '_') :
    normalize s = s := by
  unfold normalize
  rw [normalize_chars s.data h, mk_data]

/-! ## C4: identifier sanitization -/

/-- C4: identifier sanitization is idempotent — an identifier made of
letters, digits and underscores that is not a reserved keyword passes
through `replaceReservedWords` (and hence `normalize`) unchanged — and
sanitizing any reserved Go keyword yields a value that equals no reserved
keyword. -/
theorem C4_sanitization_idempotent :
    (∀ s : String, (∀ c ∈ s.data, c.isAlpha ∨ c.isDigit ∨ c = '_') →
      (∀ p ∈ reservedWords, s ≠ p.1) → replaceReservedWords s = s) ∧
    (∀ p ∈ reservedWords, ∀ q ∈ reservedWords,
      replaceReservedWords p.1 ≠ q.1) := by
  constructor
  · intro s hchars hres
    have h0 : mapGetD reservedWords s = "" := mapGetD_of_not_mem hres
    unfold replaceReservedWords
    simp only [h0, ne_eq, not_true_eq_false, ite_false]
    exact normalize_of_safe hchars
  · decide

/-- Witness for C4 at concrete inputs. -/
theorem C4_witness :
    replaceReservedWords "My_Field1" = "My_Field1" ∧
    replaceReservedWords "break" ≠ "type" :=
  ⟨C4_sanitization_idempotent.1 "My_Field1" (by decide) (by decide),
   C4_sanitization_idempotent.2 ("break", "break_") (by decide)
     ("type", "type_") (by decide)⟩

/-! ## C5: export-visibility casing -/

/-- C5: `makePublic` upper-cases the leading character of every identifier,
except that the fixed set of already-canonical built-in type spellings
passes through unchanged, and the empty identifier maps to the placeholder
`EmptyString` instead of failing or staying empty. -/
theorem C5_makePublic_visibility :
    (∀ s, isBasicType s = true → makePublic s = s) ∧
    makePublic "" = "EmptyString" ∧
    (∀ s, isBasicType s = false → s ≠ "" →
      makePublic s = String.mk (upperFirst s.data)) := by
  refine ⟨?_, by decide, ?_⟩
  · intro s h
    simp [makePublic, h]
  · intro s h hne
    obtain ⟨l⟩ := s
    match l with
    | [] => exact absurd rfl hne
    | c :: cs => simp [makePublic, h, hne, upperFirst]

/-- Witness for C5 at concrete inputs. -/
theorem C5_witness :
    makePublic "fooBar" = "FooBar" ∧ makePublic "[]byte" = "[]byte" :=
  ⟨(C5_makePublic_visibility.2.2 "fooBar" (by decide) (by decide)).trans
     (by decide),
   C5_makePublic_visibility.1 "[]byte" (by decide)⟩

/-! ## C3: type mapping and nullability -/

/-- C3 counterexample: for the unmapped (complex-reference) name `Foo`, the
non-nillable mapping is already the pointer form `*Foo`, identical to the
nillable mapping — contradicting the claim that non-nillable values map to
the direct (non-pointer) form and that the two variants differ only by
indirection. -/
theorem C3_cex :
    toGoType "Foo" false = "*Foo" ∧ toGoType "Foo" true = toGoType "Foo" false :=
  ⟨rfl, rfl⟩

/-- C3 amended: for names found in the primitive table the nillable and
non-nillable mappings differ exactly by the `*` indirection marker; names
not in the table are treated as complex-type references and map to the
pointer form for both flags. -/
theorem C3_nullability_amended (xsdType : String) :
    (mapGetD xsd2GoTypes (lowerStr (stripns xsdType)) ≠ "" →
      toGoType xsdType false = mapGetD xsd2GoTypes (lowerStr (stripns xsdType)) ∧
      toGoType xsdType true = "*" ++ toGoType xsdType false) ∧
    (mapGetD xsd2GoTypes (lowerStr (stripns xsdType)) = "" →
      ∀ nillable, toGoType xsdType nillable =
        "*" ++ replaceReservedWords (makePublic (stripns xsdType))) := by
  constructor
  · intro h
    constructor <;> simp [toGoType, h]
  · intro h nillable
    simp [toGoType, h]

/-- Witness for C3 at a concrete primitive. -/
theorem C3_witness :
    toGoType "xsd:string" true = "*string" ∧
    toGoType "xsd:string" false = "string" :=
  ⟨((C3_nullability_amended "xsd:string").1 (by decide)).2.trans (by decide),
   ((C3_nullability_amended "xsd:string").1 (by decide)).1.trans (by decide)⟩

/-! ## C8: formatter fallback -/

/-- C8: `formattaCodice` concatenates the artifact byte slices; when the
canonical formatter rejects the concatenation the unformatted concatenation
is returned (the error is only logged), and when it succeeds the formatted
bytes are returned — a run never fails solely because formatting failed. -/
theorem C8_formatter_fallback (fmtSrc : String → Except String String)
    (parts : List String) :
    (∀ e, fmtSrc (String.join parts) = .error e →
      formattaCodice fmtSrc parts = String.join parts) ∧
    (∀ f, fmtSrc (String.join parts) = .ok f →
      formattaCodice fmtSrc parts = f) := by
  have hj : parts.foldl (fun b part => b ++ part) "" = String.join parts := rfl
  constructor
  · intro e he
    simp [formattaCodice, hj, he]
  · intro f hf
    simp [formattaCodice, hj, hf]

/-- Witness for C8: a formatter that rejects everything falls back to the
concatenation. -/
theorem C8_witness :
    formattaCodice (fun _ => .error "fmt") ["package a", "; bad"] =
      "package a; bad" :=
  ((C8_formatter_fallback (fun _ => .error "fmt") ["package a", "; bad"]).1
    "fmt" rfl).trans (by decide)

/-! ## C7: input-error handling in main -/

theorem NewGoWSDL_empty_file (parseLoc : String → Except String String)
    {file : String} (pkg : String) (itls exp : Bool)
    (h : trimStr file = "") :
    NewGoWSDL parseLoc file pkg itls exp =
      .error "WSDL file is required to generate Go proxy" := by
  simp [NewGoWSDL, h]

theorem NewGoWSDL_parse_error (parseLoc : String → Except String String)
    {file : String} (pkg : String) (itls exp : Bool) {err : String}
    (h1 : trimStr file ≠ "") (h2 : parseLoc (trimStr file) = .error err) :
    NewGoWSDL parseLoc file pkg itls exp = .error err := by
  simp [NewGoWSDL, h1, h2]

theorem NewGoWSDL_pkg_default (parseLoc : String → Except String String)
    {file pkg : String} (itls exp : Bool) {loc : String}
    (h1 : trimStr file ≠ "") (h2 : parseLoc (trimStr file) = .ok loc)
    (h3 : trimStr pkg = "") :
    NewGoWSDL parseLoc file pkg itls exp =
      .ok ⟨loc, "generated_from_wsdl", itls, exp⟩ := by
  simp [NewGoWSDL, h1, h2, h3]

/-- C7 counterexample: a run with a well-formed WSDL path and an empty
package name does not abort — the empty package name is silently replaced
by the default `generated_from_wsdl` and the run proceeds (towards the
network fetch in `Start`), contradicting the claim that a missing/empty
package name is an input error that aborts the run. -/
theorem C7_cex :
    mainFlow parseOk ["gowsdl", "svc.wsdl"] "out.go" "" false true =
      RunOutcome.proceeded cexMainCfg := by
  decide

/-- C7 amended: a missing argument, an output path equal to the WSDL path,
an empty (after trimming) WSDL path, and an unparsable WSDL location each
abort the run before any network activity; an empty package name however
does not abort — it is replaced by the default `generated_from_wsdl` and
the run proceeds. -/
theorem C7_input_errors_amended (parseLoc : String → Except String String)
    (args : List String) (outFile pkg : String) (itls exp : Bool) :
    (args.length < 2 →
      ∃ m, mainFlow parseLoc args outFile pkg itls exp = .aborted m) ∧
    (2 ≤ args.length → outFile = args.getLastD "" →
      ∃ m, mainFlow parseLoc args outFile pkg itls exp = .aborted m) ∧
    (2 ≤ args.length → outFile ≠ args.getLastD "" →
      trimStr (args.getLastD "") = "" →
      ∃ m, mainFlow parseLoc args outFile pkg itls exp = .aborted m) ∧
    (∀ err, 2 ≤ args.length → outFile ≠ args.getLastD "" →
      trimStr (args.getLastD "") ≠ "" →
      parseLoc (trimStr (args.getLastD "")) = .error err →
      mainFlow parseLoc args outFile pkg itls exp = .aborted err) ∧
    (∀ loc, 2 ≤ args.length → outFile ≠ args.getLastD "" →
      trimStr (args.getLastD "") ≠ "" →
      parseLoc (trimStr (args.getLastD "")) = .ok loc → trimStr pkg = "" →
      mainFlow parseLoc args outFile pkg itls exp =
        .proceeded ⟨loc, "generated_from_wsdl", itls, exp⟩) := by
  refine ⟨?_, ?_, ?_, ?_, ?_⟩
  · intro h
    exact ⟨"usage", by simp [mainFlow, h]⟩
  · intro hlen hof
    refine ⟨"Il file di output non puo essere lo stesso del file WSDL", ?_⟩
    simp only [mainFlow]
    rw [if_neg (by omega), if_pos hof]
  · intro hlen hof htrim
    refine ⟨"WSDL file is required to generate Go proxy", ?_⟩
    simp only [mainFlow]
    rw [if_neg (by omega), if_neg hof,
      NewGoWSDL_empty_file parseLoc pkg itls exp htrim]
  · intro err hlen hof htrim herr
    simp only [mainFlow]
    rw [if_neg (by omega), if_neg hof,
      NewGoWSDL_parse_error parseLoc pkg itls exp htrim herr]
  · intro loc hlen hof htrim hok hpkg
    simp only [mainFlow]
    rw [if_neg (by omega), if_neg hof,
      NewGoWSDL_pkg_default parseLoc itls exp htrim hok hpkg]

/-- Witness for C7: the abort branches fire on concrete bad inputs. -/
theorem C7_witness :
    (∃ m, mainFlow parseOk ["gowsdl", "svc.wsdl"] "svc.wsdl" "p" false true =
      RunOutcome.aborted m) ∧
    (∃ m, mainFlow parseOk ["gowsdl", "  "] "out.go" "p" false true =
      RunOutcome.aborted m) :=
  ⟨(C7_input_errors_amended parseOk ["gowsdl", "svc.wsdl"] "svc.wsdl" "p"
      false true).2.1 (by decide) (by decide),
   (C7_input_errors_amended parseOk ["gowsdl", "  "] "out.go" "p"
      false true).2.2.1 (by decide) (by decide) (by decide)⟩

/-! ## C9: findType message resolution -/

theorem findTypeLoop_skip (schemas : List XSDSchema) (key : String)
    (pre rest : List WSDLMessage)
    (h : ∀ m ∈ pre, m.name ≠ key ∨ m.parts = []) :
    findTypeLoop schemas key (pre ++ rest) = findTypeLoop schemas key rest := by
  induction pre with
  | nil => rfl
  | cons m ms ih =>
    have tail := ih (fun q hq => h q (by simp [hq]))
    by_cases hn : m.name = key
    · have hp : m.parts = [] := by
        rcases h m (by simp) with h1 | h2
        · exact absurd hn h1
        · exact h2
      simp [findTypeLoop, hn, hp, tail]
    · simp [findTypeLoop, hn, tail]

theorem findTypeLoop_all_skip (schemas : List XSDSchema) (key : String)
    (msgs : List WSDLMessage)
    (h : ∀ m ∈ msgs, m.name ≠ key ∨ m.parts = []) :
    findTypeLoop schemas key msgs = "" := by
  have := findTypeLoop_skip schemas key msgs [] h
  simpa using this

/-- C9: `findType` resolves a message name to the type carried by the first
matching message with parts: a directly declared part type is returned
namespace-stripped; otherwise the part's element reference is resolved
case-insensitively against all elements of all schemas (via
`findInSchemas`, which returns the element's stripped declared type, or the
element's own name when it declares none); matching messages with zero
parts are skipped with a diagnostic rather than failing, and when nothing
resolves the result is the empty string. -/
theorem C9_findType_resolution (wsdl : WSDL) (message : String) :
    ((∀ m ∈ wsdl.messages, m.name = stripns message → m.parts = []) →
      findType wsdl message = "") ∧
    (∀ pre msg post part rest,
      wsdl.messages = pre ++ msg :: post →
      (∀ m ∈ pre, m.name ≠ stripns message ∨ m.parts = []) →
      msg.name = stripns message → msg.parts = part :: rest →
      ((part.typ ≠ "" → findType wsdl message = stripns part.typ) ∧
       (∀ r, part.typ = "" →
          findInSchemas (stripns part.element) wsdl.schemas = some r →
          findType wsdl message = r) ∧
       (part.typ = "" →
          findInSchemas (stripns part.element) wsdl.schemas = none →
          (∀ m ∈ post, m.name ≠ stripns message) →
          findType wsdl message = ""))) := by
  constructor
  · intro h
    unfold findType
    apply findTypeLoop_all_skip
    intro m hm
    by_cases hn : m.name = stripns message
    · exact .inr (h m hm hn)
    · exact .inl hn
  · intro pre msg post part rest hsplit hpre hname hparts
    unfold findType
    rw [hsplit, findTypeLoop_skip _ _ pre _ hpre]
    refine ⟨?_, ?_, ?_⟩
    · intro ht
      simp [findTypeLoop, hname, hparts, ht]
    · intro r ht hfind
      simp [findTypeLoop, hname, hparts, ht, hfind]
    · intro ht hnone hpost
      have hrest : findTypeLoop wsdl.schemas (stripns message) post = "" :=
        findTypeLoop_all_skip _ _ post (fun m hm => .inl (hpost m hm))
      simp [findTypeLoop, hname, hparts, ht, hnone, hrest]

/-- Witness for C9: the direct-type branch and the element branch on a
concrete WSDL. -/
theorem C9_witness :
    findType wsdlW "tns:InMsg" = "InBody" ∧
    findType wsdlW "tns:OutMsg" = "OutBody" :=
  ⟨(((C9_findType_resolution wsdlW "tns:InMsg").2 []
      ⟨"InMsg", [⟨"p", "", "tns:InBody"⟩]⟩
      [⟨"OutMsg", [⟨"p", "tns:OutEl", ""⟩]⟩]
      ⟨"p", "", "tns:InBody"⟩ [] rfl (by simp) (by decide) rfl).1
      (by decide)).trans (by decide),
   ((C9_findType_resolution wsdlW "tns:OutMsg").2
      [⟨"InMsg", [⟨"p", "", "tns:InBody"⟩]⟩]
      ⟨"OutMsg", [⟨"p", "tns:OutEl", ""⟩]⟩ []
      ⟨"p", "tns:OutEl", ""⟩ [] rfl (by decide) (by decide) rfl).2.1
      "OutBody" rfl (by decide)⟩

/-! ## C6: external-schema resolution -/

theorem RInv.rfl {n : Nat} (w : RWorld n) (st : RState n) : RInv w st st := by
  refine ⟨Finset.Subset.refl _, [], [], by simp, by simp, by simp, by simp,
    by simp, by simp, by simp⟩

theorem RInv.trans {n : Nat} {w : RWorld n} {s1 s2 s3 : RState n}
    (h12 : RInv w s1 s2) (h23 : RInv w s2 s3) : RInv w s1 s3 := by
  obtain ⟨sub12, da1, df1, app1, fet1, nda1, ndf1, iff1, new1, res1, clo1⟩ := h12
  obtain ⟨sub23, da2, df2, app2, fet2, nda2, ndf2, iff2, new2, res2, clo2⟩ := h23
  have hdisj : ∀ l ∈ da1, l ∉ da2 := by
    intro l h1 h2
    have hl2 : l ∈ s2.resolved := by
      rw [res1]
      exact Finset.mem_union_right _ (List.mem_toFinset.mpr h1)
    exact new2 l h2 hl2
  refine ⟨sub12.trans sub23, da1 ++ da2, df1 ++ df2, ?_, ?_, ?_, ?_, ?_, ?_, ?_, ?_⟩
  · rw [app2, app1, List.append_assoc]
  · rw [fet2, fet1, List.append_assoc]
  · exact List.Nodup.append nda1 nda2 (fun l h1 h2 => hdisj l h1 h2)
  · refine List.Nodup.append ndf1 ndf2 (fun l h1 h2 => ?_)
    exact hdisj l ((iff1 l).mpr h1) ((iff2 l).mpr h2)
  · intro l
    simp only [List.mem_append]
    exact or_congr (iff1 l) (iff2 l)
  · intro l hl
    rcases List.mem_append.mp hl with h1 | h2
    · exact new1 l h1
    · exact fun hm => new2 l h2 (sub12 hm)
  · rw [res2, res1]
    ext x
    simp [List.toFinset_append, Finset.union_assoc]
  · intro l hl r hr
    rcases List.mem_append.mp hl with h1 | h2
    · exact sub23 (clo1 l h1 r hr)
    · exact clo2 l h2 r hr

theorem refsOf_nil {n : Nat} {sch : SchemaRefs n}
    (h : ¬(0 < sch.includes.length ∨ 0 < sch.imports.length)) :
    refsOf sch = [] := by
  push_neg at h
  have h1 : sch.includes = [] := List.length_eq_zero.mp (by omega)
  have h2 : sch.imports = [] := List.length_eq_zero.mp (by omega)
  simp [refsOf, h1, h2]

theorem resolver_inv :
    ∀ (fuel : Nat) {n : Nat} (w : RWorld n),
      (∀ (st : RState n) (ref : Fin n) (st2 : RState n),
        downloadF w fuel st ref = some st2 →
        RInv w st st2 ∧ ref ∈ st2.resolved) ∧
      (∀ (refs : List (Fin n)) (st st2 : RState n),
        resolveListF w fuel refs st = some st2 →
        RInv w st st2 ∧ ∀ r ∈ refs, r ∈ st2.resolved) := by
  intro fuel
  induction fuel with
  | zero =>
    intro n w
    constructor
    · intro st ref st2 h
      exact absurd h (by simp [downloadF])
    · intro refs st st2 h
      match refs with
      | [] =>
        simp only [resolveListF, Option.some.injEq] at h
        subst h
        exact ⟨RInv.rfl w st, by simp⟩
      | r :: rs =>
        simp [resolveListF, downloadF] at h
  | succ f ih =>
    intro n w
    have ihr := (ih w).2
    have hd : ∀ (st : RState n) (ref : Fin n) (st2 : RState n),
        downloadF w (f + 1) st ref = some st2 →
        RInv w st st2 ∧ ref ∈ st2.resolved := by
      intro st ref st2 h
      rw [downloadF] at h
      by_cases hres : ref ∈ st.resolved
      · rw [if_pos hres] at h
        simp only [Option.some.injEq] at h
        subst h
        exact ⟨RInv.rfl w st, hres⟩
      · rw [if_neg hres] at h
        simp only [] at h
        set st1 : RState n :=
          ⟨insert ref st.resolved, st.fetched ++ [ref], st.appended⟩ with hst1
        cases hmid : (if 0 < (w.fetch ref).includes.length ∨
              0 < (w.fetch ref).imports.length then
            resolveListF w f (refsOf (w.fetch ref)) st1
          else some st1) with
        | none =>
          rw [hmid] at h
          simp at h
        | some stm =>
          rw [hmid] at h
          simp only [Option.some.injEq] at h
          have hmidP : RInv w st1 stm ∧
              ∀ r ∈ refsOf (w.fetch ref), r ∈ stm.resolved := by
            by_cases hg : 0 < (w.fetch ref).includes.length ∨
                0 < (w.fetch ref).imports.length
            · rw [if_pos hg] at hmid
              exact ihr _ _ _ hmid
            · rw [if_neg hg] at hmid
              simp only [Option.some.injEq] at hmid
              subst hmid
              refine ⟨RInv.rfl w st1, ?_⟩
              simp [refsOf_nil hg]
          obtain ⟨⟨subm, da, df, happ, hfet, hnda, hndf, hiff, hnew, hresv, hclo⟩,
            hrefs⟩ := hmidP
          have hrefst1 : ref ∈ st1.resolved := by
            simp [hst1]
          have hrefstm : ref ∈ stm.resolved := subm hrefst1
          have hrefnot : ∀ l ∈ da, l ≠ ref := by
            intro l hl he
            exact hnew l hl (he ▸ hrefst1)
          subst h
          constructor
          · refine ⟨?_, da ++ [ref], ref :: df, ?_, ?_, ?_, ?_, ?_, ?_, ?_, ?_⟩
            · intro x hx
              exact subm (by simp [hst1, Finset.mem_insert_of_mem hx])
            · simp only [happ, hst1, List.append_assoc]
            · simp only [hfet, hst1, List.append_assoc]
              simp
            · refine List.Nodup.append hnda (by simp) ?_
              intro l h1 h2
              simp only [List.mem_singleton] at h2
              exact hrefnot l h1 h2
            · refine List.Nodup.cons ?_ hndf
              intro hmem
              exact hrefnot ref ((hiff ref).mpr hmem) rfl
            · intro l
              have hx := hiff l
              simp only [List.mem_append, List.mem_cons, List.not_mem_nil,
                or_false]
              tauto
            · intro l hl
              rcases List.mem_append.mp hl with h1 | h2
              · intro hm
                exact hnew l h1 (by simp [hst1, Finset.mem_insert_of_mem hm])
              · simp only [List.mem_singleton] at h2
                subst h2
                exact hres
            · rw [hresv]
              ext x
              simp [hst1]
              tauto
            · intro l hl r hr
              rcases List.mem_append.mp hl with h1 | h2
              · exact hclo l h1 r hr
              · simp only [List.mem_singleton] at h2
                subst h2
                exact hrefs r hr
          · exact hrefstm
    refine ⟨hd, ?_⟩
    intro refs
    induction refs with
    | nil =>
      intro st st2 h
      simp only [resolveListF, Option.some.injEq] at h
      subst h
      exact ⟨RInv.rfl w st, by simp⟩
    | cons r rs ihl =>
      intro st st2 h
      simp only [resolveListF] at h
      cases hdl : downloadF w (f + 1) st r with
      | none =>
        rw [hdl] at h
        simp at h
      | some st1 =>
        rw [hdl] at h
        obtain ⟨inv1, hr⟩ := hd st r st1 hdl
        obtain ⟨inv2, hall⟩ := ihl st1 st2 h
        refine ⟨inv1.trans inv2, ?_⟩
        intro x hx
        rcases List.mem_cons.mp hx with h1 | h2
        · subst h1
          exact inv2.1 hr
        · exact hall x h2

theorem resolver_success :
    ∀ (fuel : Nat) {n : Nat} (w : RWorld n),
      (∀ (st : RState n) (ref : Fin n), n + 1 ≤ fuel + st.resolved.card →
        (downloadF w fuel st ref).isSome) ∧
      (∀ (refs : List (Fin n)) (st : RState n),
        n + 1 ≤ fuel + st.resolved.card →
        (resolveListF w fuel refs st).isSome) := by
  intro fuel
  induction fuel with
  | zero =>
    intro n w
    have hcard : ∀ st : RState n, st.resolved.card ≤ n := by
      intro st
      simpa using Finset.card_le_univ st.resolved
    constructor
    · intro st ref h
      exact absurd h (by have := hcard st; omega)
    · intro refs st h
      exact absurd h (by have := hcard st; omega)
  | succ f ih =>
    intro n w
    have ihr := (ih w).2
    have hd : ∀ (st : RState n) (ref : Fin n),
        n + 1 ≤ (f + 1) + st.resolved.card →
        (downloadF w (f + 1) st ref).isSome := by
      intro st ref h
      rw [downloadF]
      by_cases hres : ref ∈ st.resolved
      · simp [hres]
      · rw [if_neg hres]
        simp only []
        set st1 : RState n :=
          ⟨insert ref st.resolved, st.fetched ++ [ref], st.appended⟩ with hst1
        have hcard1 : st1.resolved.card = st.resolved.card + 1 := by
          simp [hst1, Finset.card_insert_of_not_mem hres]
        have hmid : (if 0 < (w.fetch ref).includes.length ∨
              0 < (w.fetch ref).imports.length then
            resolveListF w f (refsOf (w.fetch ref)) st1
          else some st1).isSome := by
          by_cases hg : 0 < (w.fetch ref).includes.length ∨
              0 < (w.fetch ref).imports.length
          · rw [if_pos hg]
            exact ihr _ st1 (by omega)
          · simp [hg]
        cases hm : (if 0 < (w.fetch ref).includes.length ∨
              0 < (w.fetch ref).imports.length then
            resolveListF w f (refsOf (w.fetch ref)) st1
          else some st1) with
        | none =>
          rw [hm] at hmid
          simp at hmid
        | some stm =>
          simp
    refine ⟨hd, ?_⟩
    intro refs
    induction refs with
    | nil =>
      intro st h
      simp [resolveListF]
    | cons r rs ihl =>
      intro st h
      have h1 := hd st r h
      cases hdl : downloadF w (f + 1) st r with
      | none =>
        rw [hdl] at h1
        simp at h1
      | some st1 =>
        have hsub := ((resolver_inv (f + 1) w).1 st r st1 hdl).1.1
        have hcard : st.resolved.card ≤ st1.resolved.card :=
          Finset.card_le_card hsub
        simp only [resolveListF]
        rw [hdl]
        exact ihl st1 (by omega)

/-- C6: on every import/include graph over a finite universe of absolute
locations — cyclic graphs included — `resolveXSDExternals` terminates
(fuel `n + 1` is never exhausted, i.e. the recursion depth is bounded by
the number of locations), and every externally referenced location is
fetched, unmarshalled and appended to the schema collection exactly once:
the fetch and append traces are duplicate-free and carry the same
locations, every reference of the root schema and of every fetched schema
is resolved, and the resolved set is exactly the set of appended
locations — the `resolvedXSDExternals` set prevents both redundant fetches
and infinite recursion. -/
theorem C6_resolution_exactly_once {n : Nat} (w : RWorld n)
    (root : SchemaRefs n) :
    ∃ st2, resolveXSDExternalsF w (n + 1) root (initRState n) = some st2 ∧
      st2.fetched.Nodup ∧ st2.appended.Nodup ∧
      (∀ l, l ∈ st2.appended ↔ l ∈ st2.fetched) ∧
      (∀ r ∈ refsOf root, r ∈ st2.resolved) ∧
      (∀ l ∈ st2.appended, ∀ r ∈ refsOf (w.fetch l), r ∈ st2.resolved) ∧
      (∀ l, l ∈ st2.resolved ↔ l ∈ st2.appended) := by
  have hsome := (resolver_success (n + 1) w).2 (refsOf root) (initRState n)
    (by simp [initRState])
  rw [show resolveListF w (n + 1) (refsOf root) (initRState n) =
      resolveXSDExternalsF w (n + 1) root (initRState n) from rfl] at hsome
  cases hres : resolveXSDExternalsF w (n + 1) root (initRState n) with
  | none =>
    rw [hres] at hsome
    simp at hsome
  | some st2 =>
    obtain ⟨inv, hall⟩ := (resolver_inv (n + 1) w).2 (refsOf root)
      (initRState n) st2 hres
    obtain ⟨hsub, da, df, happ, hfet, hnda, hndf, hiff, hnew, hresolved, hclo⟩ :=
      inv
    have happ2 : st2.appended = da := by simpa [initRState] using happ
    have hfet2 : st2.fetched = df := by simpa [initRState] using hfet
    refine ⟨st2, rfl, hfet2 ▸ hndf, happ2 ▸ hnda, ?_, hall, ?_, ?_⟩
    · intro l
      rw [happ2, hfet2]
      exact hiff l
    · intro l hl r hr
      exact hclo l (happ2 ▸ hl) r hr
    · intro l
      rw [hresolved, happ2]
      simp [initRState]

/-! ## C1 and C2: collision renaming -/

theorem countName_cons (nm : String) (p : String × String)
    (l : List (String × String)) :
    countName nm (p :: l) = countName nm l + (if p.2 = nm then 1 else 0) := by
  by_cases h : p.2 = nm <;> simp [countName, List.count_cons, h]

theorem countName_append (nm : String) (l1 l2 : List (String × String)) :
    countName nm (l1 ++ l2) = countName nm l1 + countName nm l2 := by
  simp [countName, List.count_append]

theorem renameSeq_length (st : CollState) (l : List (String × String)) :
    (renameSeq st l).2.length = l.length := by
  induction l generalizing st with
  | nil => rfl
  | cons p rest ih =>
    by_cases h : 0 < st.seen p.2 <;> simp [renameSeq, h, ih]

theorem renameSeq_append (st : CollState) (l1 l2 : List (String × String)) :
    renameSeq st (l1 ++ l2) =
      ((renameSeq (renameSeq st l1).1 l2).1,
       (renameSeq st l1).2 ++ (renameSeq (renameSeq st l1).1 l2).2) := by
  induction l1 generalizing st with
  | nil => simp [renameSeq]
  | cons p rest ih =>
    by_cases h : 0 < st.seen p.2 <;> simp [renameSeq, h, ih]

theorem renameSeq_seen (l : List (String × String)) :
    ∀ (st : CollState) (y : String),
      ((renameSeq st l).1).seen y = st.seen y - countName y l := by
  induction l with
  | nil =>
    intro st y
    simp [renameSeq, countName]
  | cons p rest ih =>
    intro st y
    rw [countName_cons]
    by_cases h : 0 < st.seen p.2
    · simp only [renameSeq, h, ite_true]
      rw [ih]
      simp only [updN]
      by_cases hy : y = p.2
      · rw [if_pos hy, hy]
        by_cases he : p.2 = p.2
        · simp only [he, ite_true]
          omega
        · exact absurd rfl he
      · rw [if_neg hy, if_neg (fun he => hy he.symm)]
        omega
    · simp only [renameSeq, h, ite_false]
      rw [ih]
      by_cases hy : p.2 = y
      · rw [if_pos hy, ← hy]
        omega
      · rw [if_neg hy]
        omega

theorem renameSeq_colls_frozen (l : List (String × String)) :
    ∀ (st : CollState) (k : String),
      (∀ p ∈ l, keyOf p = k → st.seen p.2 = 0) →
      ((renameSeq st l).1).colls k = st.colls k := by
  induction l with
  | nil =>
    intro st k _
    rfl
  | cons p rest ih =>
    intro st k h
    by_cases hp : 0 < st.seen p.2
    · have hkey : keyOf p ≠ k := by
        intro he
        have := h p (by simp) he
        omega
      simp only [renameSeq, hp, ite_true]
      rw [ih]
      · simp [updS, hkey.symm]
      · intro q hq hqk
        have hq0 : st.seen q.2 = 0 := h q (by simp [hq]) hqk
        simp only [updN]
        by_cases hqe : q.2 = p.2
        · rw [if_pos hqe]
          rw [hqe] at hq0
          omega
        · rw [if_neg hqe]
          exact hq0
    · simp only [renameSeq, hp, ite_false]
      exact ih st k (fun q hq => h q (by simp [hq]))

theorem renameSeq_write_last (st : CollState) (l : List (String × String))
    (i : Nat) (h : i < l.length)
    (hpos : 0 < st.seen (l[i].2) - countName (l[i].2) (l.take i))
    (hlast : ∀ q ∈ l.drop (i + 1), keyOf q ≠ keyOf l[i]) :
    ((renameSeq st l).1).colls (keyOf l[i]) =
      some (l[i].2 ++
        Nat.repr (st.seen (l[i].2) - countName (l[i].2) (l.take i))) := by
  have hsplit : l = l.take i ++ (l[i] :: l.drop (i + 1)) := by
    conv_lhs => rw [← List.take_append_drop i l]
    rw [List.drop_eq_getElem_cons h]
  have key : renameSeq st l = renameSeq st (l.take i ++ (l[i] :: l.drop (i + 1))) := by
    rw [← hsplit]
  rw [key, renameSeq_append]
  have hseen1 : ((renameSeq st (l.take i)).1).seen (l[i].2) =
      st.seen (l[i].2) - countName (l[i].2) (l.take i) :=
    renameSeq_seen _ _ _
  have hposs : 0 < ((renameSeq st (l.take i)).1).seen (l[i].2) := by
    rw [hseen1]
    exact hpos
  simp only [renameSeq, hposs, ite_true]
  rw [renameSeq_colls_frozen]
  · simp [updS, hseen1]
  · intro q hq hk
    exact absurd hk (hlast q hq)

theorem countName_take_succ (nm : String) (l : List (String × String))
    (i : Nat) (h : i < l.length) :
    countName nm (l.take (i + 1)) =
      countName nm (l.take i) + (if l[i].2 = nm then 1 else 0) := by
  rw [← List.take_concat_get l i h, List.concat_eq_append]
  rw [countName_append]
  congr 1
  by_cases he : l[i].2 = nm <;> simp [countName, List.count_cons, he]

theorem countName_take_le_take (nm : String) (l : List (String × String))
    {i j : Nat} (hij : i ≤ j) :
    countName nm (l.take i) ≤ countName nm (l.take j) := by
  simp only [countName, List.map_take]
  have : (l.map Prod.snd).take i = ((l.map Prod.snd).take j).take i := by
    rw [List.take_take, Nat.min_eq_left hij]
  rw [this]
  exact (List.take_sublist i ((l.map Prod.snd).take j)).count_le _

theorem countName_take_le (nm : String) (l : List (String × String)) (i : Nat) :
    countName nm (l.take i) ≤ countName nm l := by
  simp only [countName, List.map_take]
  exact (List.take_sublist i (l.map Prod.snd)).count_le _

theorem countName_take_lt (nm : String) (l : List (String × String))
    {i : Nat} (h : i < l.length) (he : l[i].2 = nm) :
    countName nm (l.take i) < countName nm l := by
  have h1 : countName nm (l.take (i + 1)) = countName nm (l.take i) + 1 := by
    rw [countName_take_succ nm l i h, if_pos he]
  have h2 : countName nm (l.take (i + 1)) ≤ countName nm l :=
    countName_take_le nm l (i + 1)
  omega

theorem countName_take_lt_take (nm : String) (l : List (String × String))
    {i j : Nat} (hi : i < l.length) (hij : i < j) (he : l[i].2 = nm) :
    countName nm (l.take i) < countName nm (l.take j) := by
  have h1 : countName nm (l.take (i + 1)) = countName nm (l.take i) + 1 := by
    rw [countName_take_succ nm l i hi, if_pos he]
  have h2 : countName nm (l.take (i + 1)) ≤ countName nm (l.take j) :=
    countName_take_le_take nm l hij
  omega

theorem renameSeq_get (l : List (String × String)) :
    ∀ (st : CollState) (i : Nat), ∀ h : i < l.length,
      ∀ h2 : i < (renameSeq st l).2.length,
      (renameSeq st l).2[i] =
        (l[i].1,
          if 0 < st.seen (l[i].2) - countName (l[i].2) (l.take i) then
            l[i].2 ++
              Nat.repr (st.seen (l[i].2) - countName (l[i].2) (l.take i))
          else l[i].2) := by
  induction l with
  | nil =>
    intro st i h h2
    simp at h
  | cons p rest ih =>
    intro st i h h2
    match i with
    | 0 =>
      by_cases hp : 0 < st.seen p.2 <;>
        simp [renameSeq, hp, countName]
    | i + 1 =>
      have hi : i < rest.length := by simpa using h
      have hmain : ∀ st1 : CollState,
          (renameSeq st1 rest).2.get ⟨i, by rw [renameSeq_length]; exact hi⟩ =
            (rest[i].1,
              if 0 < st1.seen (rest[i].2) - countName (rest[i].2) (rest.take i) then
                rest[i].2 ++
                  Nat.repr (st1.seen (rest[i].2) - countName (rest[i].2) (rest.take i))
              else rest[i].2) := by
        intro st1
        exact ih st1 i hi (by rw [renameSeq_length]; exact hi)
      simp only [List.getElem_cons_succ, List.take_succ_cons, countName_cons]
      by_cases hp : 0 < st.seen p.2
      · simp only [renameSeq, hp, ite_true, List.getElem_cons_succ]
        have hx := hmain ⟨updN st.seen p.2 (st.seen p.2 - 1),
          updS st.colls (keyOf p) (p.2 ++ Nat.repr (st.seen p.2))⟩
        rw [List.get_eq_getElem] at hx
        rw [hx]
        have harith : (updN st.seen p.2 (st.seen p.2 - 1)) (rest[i].2) -
            countName (rest[i].2) (rest.take i) =
            st.seen (rest[i].2) -
              (countName (rest[i].2) (rest.take i) +
                if p.2 = rest[i].2 then 1 else 0) := by
          simp only [updN]
          by_cases he : rest[i].2 = p.2
          · rw [if_pos he, if_pos he.symm, he]
            omega
          · rw [if_neg he, if_neg (fun hx => he hx.symm)]
            omega
        rw [harith]
      · simp only [renameSeq, hp, ite_false, List.getElem_cons_succ]
        have hx := hmain st
        rw [List.get_eq_getElem] at hx
        rw [hx]
        by_cases he : p.2 = rest[i].2
        · have h0 : st.seen (rest[i].2) = 0 := by
            rw [← he]
            omega
          rw [h0]
          simp
        · simp [he]

theorem renameCTs_spec (ns : String) (cts : List XSDComplexType) :
    ∀ st : CollState,
      (renameCTs ns st cts).1 =
        (renameSeq st (cts.map fun c => (ns, c.name))).1 ∧
      (renameCTs ns st cts).2.map (fun c => (ns, c.name)) =
        (renameSeq st (cts.map fun c => (ns, c.name))).2 := by
  induction cts with
  | nil =>
    intro st
    exact ⟨rfl, rfl⟩
  | cons ct rest ih =>
    intro st
    by_cases hp : 0 < st.seen ct.name <;>
      constructor <;>
        simp [renameCTs, renameSeq, keyOf, hp, (ih _).1, (ih _).2]

theorem renameSTs_spec (ns : String) (sts : List XSDSimpleType) :
    ∀ st : CollState,
      (renameSTs ns st sts).1 =
        (renameSeq st (sts.map fun t => (ns, t.name))).1 ∧
      (renameSTs ns st sts).2.map (fun t => (ns, t.name)) =
        (renameSeq st (sts.map fun t => (ns, t.name))).2 := by
  induction sts with
  | nil =>
    intro st
    exact ⟨rfl, rfl⟩
  | cons ty rest ih =>
    intro st
    by_cases hp : 0 < st.seen ty.name <;>
      constructor <;>
        simp [renameSTs, renameSeq, keyOf, hp, (ih _).1, (ih _).2]

theorem renameSchemas_spec (schemas : List XSDSchema) :
    ∀ st : CollState,
      (renameSchemas st schemas).1 = (renameSeq st (occsOf schemas)).1 ∧
      occsOf (renameSchemas st schemas).2 = (renameSeq st (occsOf schemas)).2 := by
  induction schemas with
  | nil =>
    intro st
    exact ⟨rfl, rfl⟩
  | cons s rest ih =>
    intro st
    have hocc : occsOf (s :: rest) =
        ((s.complexTypes.map fun c => (s.targetNamespace, c.name)) ++
          (s.simpleTypes.map fun t => (s.targetNamespace, t.name))) ++
          occsOf rest := by
      simp [occsOf, schemaOccs, List.flatMap_cons]
    have hA := renameCTs_spec s.targetNamespace s.complexTypes st
    have hB := renameSTs_spec s.targetNamespace s.simpleTypes
      (renameCTs s.targetNamespace st s.complexTypes).1
    have hC := ih (renameSTs s.targetNamespace
      (renameCTs s.targetNamespace st s.complexTypes).1 s.simpleTypes).1
    have hoccs_cons : ∀ (x : XSDSchema) (xs : List XSDSchema),
        occsOf (x :: xs) = schemaOccs x ++ occsOf xs := by
      intro x xs
      simp [occsOf]
    constructor
    · simp only [renameSchemas, hocc, renameSeq_append]
      rw [hC.1, hB.1, hA.1]
    · simp only [renameSchemas, hoccs_cons, hocc, renameSeq_append,
        schemaOccs, List.append_assoc]
      rw [hC.2, hB.2, hA.2, hB.1, hA.1]

theorem renameSchemas_shape (schemas : List XSDSchema) :
    ∀ st : CollState,
      (renameSchemas st schemas).2.map
          (fun s => (s.targetNamespace, s.elements)) =
        schemas.map (fun s => (s.targetNamespace, s.elements)) := by
  induction schemas with
  | nil =>
    intro st
    rfl
  | cons s rest ih =>
    intro st
    simp [renameSchemas, ih]

theorem bumpSeen_apply (names : List String) :
    ∀ (m : String → Nat) (y : String),
      bumpSeen m names y = m y + names.count y := by
  induction names with
  | nil =>
    intro m y
    simp [bumpSeen]
  | cons nm rest ih =>
    intro m y
    have hstep : bumpSeen m (nm :: rest) = bumpSeen (updN m nm (m nm + 1)) rest := rfl
    rw [hstep, ih]
    simp only [updN, List.count_cons]
    by_cases he : y = nm
    · subst he
      simp
      omega
    · rw [if_neg he]
      have hbeq : (nm == y) = false := by
        simp
        exact fun hx => he hx.symm
      rw [hbeq]
      simp

theorem seenCount_eq (schemas : List XSDSchema) (y : String) :
    seenCount schemas y = countName y (occsOf schemas) := by
  suffices h : ∀ m : String → Nat,
      (schemas.foldl
        (fun acc s =>
          bumpSeen (bumpSeen acc (s.complexTypes.map XSDComplexType.name))
            (s.simpleTypes.map XSDSimpleType.name)) m) y =
        m y + countName y (occsOf schemas) by
    have := h (fun _ => 0)
    simpa [seenCount] using this
  induction schemas with
  | nil =>
    intro m
    simp [occsOf, countName]
  | cons s rest ih =>
    intro m
    simp only [List.foldl_cons]
    rw [ih, bumpSeen_apply, bumpSeen_apply]
    have hocc : countName y (occsOf (s :: rest)) =
        countName y (schemaOccs s) + countName y (occsOf rest) := by
      simp only [occsOf, List.flatMap_cons]
      exact countName_append y _ _
    have hso : countName y (schemaOccs s) =
        (s.complexTypes.map XSDComplexType.name).count y +
          (s.simpleTypes.map XSDSimpleType.name).count y := by
      simp only [schemaOccs, countName, List.map_append, List.count_append,
        List.map_map]
      rfl
    omega

theorem pass_state_seen (schemas : List XSDSchema) (y : String) :
    seenFiltered schemas y =
      if countName y (occsOf schemas) < 2 then 0
      else countName y (occsOf schemas) := by
  simp [seenFiltered, seenCount_eq]

theorem pass_occs (schemas : List XSDSchema) :
    occsOf (resolveCollisionsPass schemas).2 =
      (renameSeq ⟨seenFiltered schemas, fun _ => none⟩ (occsOf schemas)).2 :=
  (renameSchemas_spec schemas _).2

theorem pass_state (schemas : List XSDSchema) :
    (resolveCollisionsPass schemas).1 =
      (renameSeq ⟨seenFiltered schemas, fun _ => none⟩ (occsOf schemas)).1 :=
  (renameSchemas_spec schemas _).1

theorem pass_length (schemas : List XSDSchema) :
    (occsOf (resolveCollisionsPass schemas).2).length =
      (occsOf schemas).length := by
  rw [pass_occs, renameSeq_length]

theorem pass_get (schemas : List XSDSchema) (i : Nat)
    (h : i < (occsOf schemas).length)
    (h2 : i < (occsOf (resolveCollisionsPass schemas).2).length) :
    (occsOf (resolveCollisionsPass schemas).2)[i] =
      ((occsOf schemas)[i].1,
        if 2 ≤ countName ((occsOf schemas)[i].2) (occsOf schemas) then
          (occsOf schemas)[i].2 ++
            Nat.repr (countName ((occsOf schemas)[i].2) (occsOf schemas) -
              countName ((occsOf schemas)[i].2) ((occsOf schemas).take i))
        else (occsOf schemas)[i].2) := by
  have hget := renameSeq_get (occsOf schemas)
    ⟨seenFiltered schemas, fun _ => none⟩ i h
    (by rw [renameSeq_length]; exact h)
  simp only [pass_occs]
  rw [hget]
  have hsf := pass_state_seen schemas ((occsOf schemas)[i].2)
  by_cases htot : 2 ≤ countName ((occsOf schemas)[i].2) (occsOf schemas)
  · have hlt : countName ((occsOf schemas)[i].2) ((occsOf schemas).take i) <
        countName ((occsOf schemas)[i].2) (occsOf schemas) :=
      countName_take_lt _ _ h rfl
    have hseen : (CollState.mk (seenFiltered schemas) (fun _ => none)).seen
        ((occsOf schemas)[i].2) = countName ((occsOf schemas)[i].2) (occsOf schemas) := by
      show seenFiltered schemas _ = _
      rw [hsf, if_neg (by omega)]
    rw [hseen, if_pos htot, if_pos (by omega)]
  · have hseen : (CollState.mk (seenFiltered schemas) (fun _ => none)).seen
        ((occsOf schemas)[i].2) = 0 := by
      show seenFiltered schemas _ = _
      rw [hsf, if_pos (by omega)]
    rw [hseen, if_neg htot, if_neg (by omega)]

theorem pass_colls (schemas : List XSDSchema) (i : Nat)
    (h : i < (occsOf schemas).length)
    (htot : 2 ≤ countName ((occsOf schemas)[i].2) (occsOf schemas))
    (hlast : ∀ q ∈ (occsOf schemas).drop (i + 1),
      keyOf q ≠ keyOf ((occsOf schemas)[i])) :
    ((resolveCollisionsPass schemas).1).colls (keyOf ((occsOf schemas)[i])) =
      some ((occsOf schemas)[i].2 ++
        Nat.repr (countName ((occsOf schemas)[i].2) (occsOf schemas) -
          countName ((occsOf schemas)[i].2) ((occsOf schemas).take i))) := by
  have hlt : countName ((occsOf schemas)[i].2) ((occsOf schemas).take i) <
      countName ((occsOf schemas)[i].2) (occsOf schemas) :=
    countName_take_lt _ _ h rfl
  have hseen : (CollState.mk (seenFiltered schemas) (fun _ => none)).seen
      ((occsOf schemas)[i].2) = countName ((occsOf schemas)[i].2) (occsOf schemas) := by
    show seenFiltered schemas _ = _
    rw [pass_state_seen, if_neg (by omega)]
  rw [pass_state]
  have hw := renameSeq_write_last ⟨seenFiltered schemas, fun _ => none⟩
    (occsOf schemas) i h (by rw [hseen]; omega) hlast
  rw [hw, hseen]

/-- C1: the collision-resolution step of `Start` implements the spec's
renaming algorithm.  Writing `occs` for the (namespace, name) occurrences
of the whole collection in traversal order (complex types before simple
types, schema by schema) and `N x` for the occurrence count of a name:
the pass preserves the occurrence list's length; an occurrence of a name
with `N x < 2` is left unchanged; an occurrence of a name with `N x ≥ 2`
is renamed to the name with the remaining occurrence count appended (`N x`
minus the number of earlier occurrences of that name — the per-name counter
decremented after each rename), the remaining count lying between 1 and
`N x`; a collision-map entry is recorded under `namespace/name`, its
surviving value being the new name written at the last occurrence carrying
that key; and distinct occurrences of the same duplicated name receive
distinct new names. -/
theorem C1_collision_renaming (schemas : List XSDSchema) :
    (occsOf (resolveCollisionsPass schemas).2).length = (occsOf schemas).length ∧
    (∀ i, ∀ h : i < (occsOf schemas).length,
      ∀ h2 : i < (occsOf (resolveCollisionsPass schemas).2).length,
      (countName ((occsOf schemas)[i].2) (occsOf schemas) < 2 →
        (occsOf (resolveCollisionsPass schemas).2)[i] = (occsOf schemas)[i]) ∧
      (2 ≤ countName ((occsOf schemas)[i].2) (occsOf schemas) →
        (occsOf (resolveCollisionsPass schemas).2)[i] =
          ((occsOf schemas)[i].1,
            (occsOf schemas)[i].2 ++
              Nat.repr (countName ((occsOf schemas)[i].2) (occsOf schemas) -
                countName ((occsOf schemas)[i].2) ((occsOf schemas).take i))) ∧
        1 ≤ countName ((occsOf schemas)[i].2) (occsOf schemas) -
              countName ((occsOf schemas)[i].2) ((occsOf schemas).take i) ∧
        countName ((occsOf schemas)[i].2) (occsOf schemas) -
              countName ((occsOf schemas)[i].2) ((occsOf schemas).take i) ≤
            countName ((occsOf schemas)[i].2) (occsOf schemas) ∧
        ((∀ q ∈ (occsOf schemas).drop (i + 1),
            keyOf q ≠ keyOf ((occsOf schemas)[i])) →
          ((resolveCollisionsPass schemas).1).colls
              (keyOf ((occsOf schemas)[i])) =
            some ((occsOf schemas)[i].2 ++
              Nat.repr (countName ((occsOf schemas)[i].2) (occsOf schemas) -
                countName ((occsOf schemas)[i].2) ((occsOf schemas).take i)))))) ∧
    (∀ i j, ∀ hi : i < (occsOf schemas).length,
      ∀ hj : j < (occsOf schemas).length,
      ∀ hi2 : i < (occsOf (resolveCollisionsPass schemas).2).length,
      ∀ hj2 : j < (occsOf (resolveCollisionsPass schemas).2).length,
      i ≠ j → ((occsOf schemas)[i]).2 = ((occsOf schemas)[j]).2 →
      2 ≤ countName ((occsOf schemas)[i].2) (occsOf schemas) →
      ((occsOf (resolveCollisionsPass schemas).2)[i]).2 ≠
        ((occsOf (resolveCollisionsPass schemas).2)[j]).2) := by
  refine ⟨pass_length schemas, ?_, ?_⟩
  · intro i h h2
    constructor
    · intro hlt
      rw [pass_get schemas i h h2, if_neg (by omega)]
    · intro htot
      have hcnt := countName_take_lt ((occsOf schemas)[i].2) (occsOf schemas) h rfl
      refine ⟨?_, by omega, by omega, ?_⟩
      · rw [pass_get schemas i h h2, if_pos htot]
      · intro hlast
        exact pass_colls schemas i h htot hlast
  · intro i j hi hj hi2 hj2 hij hname htot
    have htotj : 2 ≤ countName ((occsOf schemas)[j].2) (occsOf schemas) := by
      rw [← hname]
      exact htot
    rw [pass_get schemas i hi hi2, if_pos htot,
      pass_get schemas j hj hj2, if_pos htotj]
    show (occsOf schemas)[i].2 ++ _ ≠ (occsOf schemas)[j].2 ++ _
    rw [← hname]
    apply suffix_ne
    rcases Nat.lt_or_ge i j with hlt | hge
    · have h1 : countName ((occsOf schemas)[i].2) ((occsOf schemas).take i) <
          countName ((occsOf schemas)[i].2) ((occsOf schemas).take j) :=
        countName_take_lt_take _ _ hi hlt rfl
      have h2 : countName ((occsOf schemas)[i].2) ((occsOf schemas).take j) <
          countName ((occsOf schemas)[i].2) (occsOf schemas) :=
        countName_take_lt _ _ hj hname.symm
      omega
    · have hlt2 : j < i := by omega
      have h1 : countName ((occsOf schemas)[i].2) ((occsOf schemas).take j) <
          countName ((occsOf schemas)[i].2) ((occsOf schemas).take i) :=
        countName_take_lt_take _ _ hj hlt2 hname.symm
      have h2 : countName ((occsOf schemas)[i].2) ((occsOf schemas).take i) <
          countName ((occsOf schemas)[i].2) (occsOf schemas) :=
        countName_take_lt _ _ hi rfl
      omega

/-- Witness for C1 on a two-namespace collection: the first `Item`
occurrence is renamed to `Item2`, and the collision map records the last
`ns2/Item` write as `Item1`. -/
theorem C1_witness :
    (occsOf (resolveCollisionsPass twoNsSchemas).2).get ⟨0, by decide⟩ =
      ("ns1", "Item2") ∧
    ((resolveCollisionsPass twoNsSchemas).1).colls "ns2/Item" =
      some "Item1" := by
  have h := C1_collision_renaming twoNsSchemas
  constructor
  · have h0 := ((h.2.1 0 (by decide) (by decide)).2 (by decide)).1
    rw [List.get_eq_getElem, h0]
    decide
  · have h1 := ((h.2.1 1 (by decide) (by decide)).2 (by decide)).2.2.2 (by decide)
    exact h1.trans (by decide)

/-- C2 counterexample: on a schema declaring `Item` twice next to a
once-declared `Item2`, collision resolution renames the two `Item`
occurrences to `Item2` and `Item1`, so the renamed first occurrence
collides with the untouched pre-existing `Item2` declaration — after the
pass the declared names are not pairwise distinct, contradicting the
claim. -/
theorem C2_cex :
    (occsOf (resolveCollisionsPass cexSchemas).2).map Prod.snd =
      ["Item2", "Item1", "Item2"] ∧
    ¬ ((occsOf (resolveCollisionsPass cexSchemas).2).map Prod.snd).Nodup := by
  constructor <;> decide

theorem nodup_not_mem_drop {l : List (String × String)} (hN : l.Nodup)
    {j : Nat} (hj : j < l.length) : l[j] ∉ l.drop (j + 1) := by
  intro hmem
  rw [List.mem_iff_getElem] at hmem
  obtain ⟨i, hi, hget⟩ := hmem
  rw [List.getElem_drop] at hget
  have : j + 1 + i = j := hN.getElem_inj_iff.mp hget
  omega

theorem finalNames_mem_self {occs : List (String × String)} {nm : String}
    (hlt : countName nm occs < 2) : nm ∈ finalNamesOf occs nm := by
  simp [finalNamesOf, if_neg (by omega : ¬ 2 ≤ countName nm occs)]

theorem finalNames_mem_suffix {occs : List (String × String)} {nm : String}
    {k : Nat} (htot : 2 ≤ countName nm occs) (h1 : 1 ≤ k)
    (h2 : k ≤ countName nm occs) :
    nm ++ Nat.repr k ∈ finalNamesOf occs nm := by
  simp only [finalNamesOf, if_pos htot, List.mem_map]
  refine ⟨k - 1, ?_, ?_⟩
  · rw [List.mem_range]
    omega
  · have hkk : k - 1 + 1 = k := by omega
    rw [hkk]

theorem pass_schemas_length (schemas : List XSDSchema) :
    (resolveCollisionsPass schemas).2.length = schemas.length := by
  have h := congrArg List.length
    (renameSchemas_shape schemas ⟨seenFiltered schemas, fun _ => none⟩)
  simpa using h

theorem pass_schema_fields (schemas : List XSDSchema) (k : Nat)
    (hk : k < schemas.length)
    (hk2 : k < (resolveCollisionsPass schemas).2.length) :
    ((resolveCollisionsPass schemas).2[k]).targetNamespace =
        (schemas[k]).targetNamespace ∧
    ((resolveCollisionsPass schemas).2[k]).elements = (schemas[k]).elements := by
  have hshape := renameSchemas_shape schemas ⟨seenFiltered schemas, fun _ => none⟩
  have hq := congrArg (fun l => l[k]?) hshape
  simp only [List.getElem?_map] at hq
  rw [show renameSchemas ⟨seenFiltered schemas, fun _ => none⟩ schemas =
    resolveCollisionsPass schemas from rfl] at hq
  rw [List.getElem?_eq_getElem hk2, List.getElem?_eq_getElem hk] at hq
  simp only [Option.map_some'] at hq
  have hpair := Option.some.inj hq
  exact ⟨congrArg Prod.fst hpair, congrArg Prod.snd hpair⟩

theorem pass_colls_none (schemas : List XSDSchema) (k : String)
    (h : ∀ p ∈ occsOf schemas, keyOf p = k →
      countName p.2 (occsOf schemas) < 2) :
    ((resolveCollisionsPass schemas).1).colls k = none := by
  have hcond : ∀ p ∈ occsOf schemas, keyOf p = k →
      (CollState.mk (seenFiltered schemas) (fun _ => none)).seen p.2 = 0 := by
    intro p hp hkeyp
    show seenFiltered schemas p.2 = 0
    rw [pass_state_seen, if_pos (h p hp hkeyp)]
  rw [pass_state, renameSeq_colls_frozen (occsOf schemas) _ k hcond]

theorem phase_schemas (schemas : List XSDSchema) :
    (startCollisionPhase schemas).2 =
      ((resolveCollisionsPass schemas).2).map
        (traverseSchema ((resolveCollisionsPass schemas).1).colls) := rfl

/-- C2 amended: the claim's collection-wide uniqueness fails in general (a
renamed occurrence can collide with a pre-existing name, see the
counterexample), but it holds under the hypotheses the counterexample
forces: when each (namespace, name) pair is declared at most once, the
`namespace/name` key strings of distinct declarations are distinct, and no
declaration's final name (original name, or original name with an
occurrence-count suffix when duplicated) coincides with a final name of a
different original name.  Then, after the collision-resolution and
traverser passes inside `Start`, every declaration's name is distinct from
every other declaration's name, every element reference whose
(namespace, name) matches a duplicated declaration is rewritten to exactly
that declaration's new name (so no two originally-distinct references
collapse and none dangles), and references to non-duplicated names are
left unchanged, still matching their unchanged declarations. -/
theorem C2_uniqueness_amended (schemas : List XSDSchema)
    (hN : (occsOf schemas).Nodup)
    (hkey : ∀ p ∈ occsOf schemas, ∀ q ∈ occsOf schemas, p ≠ q →
      keyOf p ≠ keyOf q)
    (hcross : ∀ p ∈ occsOf schemas, ∀ q ∈ occsOf schemas, p.2 ≠ q.2 →
      ∀ a ∈ finalNamesOf (occsOf schemas) p.2,
        a ∉ finalNamesOf (occsOf schemas) q.2) :
    ((occsOf (resolveCollisionsPass schemas).2).map Prod.snd).Nodup ∧
    (∀ k, ∀ hk : k < schemas.length,
      ∀ hk2 : k < (startCollisionPhase schemas).2.length,
      ∀ m, ∀ hm : m < ((schemas[k]).elements).length,
      ∀ hm2 : m < (((startCollisionPhase schemas).2[k]).elements).length,
      (∀ j, ∀ hj : j < (occsOf schemas).length,
        ∀ hj2 : j < (occsOf (resolveCollisionsPass schemas).2).length,
        (occsOf schemas)[j] =
          ((schemas[k]).targetNamespace, ((schemas[k]).elements[m]).typ) →
        2 ≤ countName (((schemas[k]).elements[m]).typ) (occsOf schemas) →
        (((startCollisionPhase schemas).2[k]).elements[m]).typ =
            ((occsOf (resolveCollisionsPass schemas).2)[j]).2 ∧
          (((startCollisionPhase schemas).2[k]).elements[m]).name =
            ((schemas[k]).elements[m]).name) ∧
      ((∀ p ∈ occsOf schemas,
          keyOf p = (schemas[k]).targetNamespace ++ "/" ++
            ((schemas[k]).elements[m]).typ →
          p = ((schemas[k]).targetNamespace, ((schemas[k]).elements[m]).typ)) →
        (∀ p ∈ occsOf schemas,
          p = ((schemas[k]).targetNamespace, ((schemas[k]).elements[m]).typ) →
          countName p.2 (occsOf schemas) < 2) →
        ((startCollisionPhase schemas).2[k]).elements[m] =
          (schemas[k]).elements[m])) := by
  constructor
  · rw [List.nodup_iff_injective_getElem]
    intro a b hab
    obtain ⟨i, hi⟩ := a
    obtain ⟨j, hj⟩ := b
    simp only [List.getElem_map] at hab
    have hi2 : i < (occsOf (resolveCollisionsPass schemas).2).length := by
      simpa using hi
    have hj2 : j < (occsOf (resolveCollisionsPass schemas).2).length := by
      simpa using hj
    have hio : i < (occsOf schemas).length := by
      rw [← pass_length schemas]
      exact hi2
    have hjo : j < (occsOf schemas).length := by
      rw [← pass_length schemas]
      exact hj2
    by_cases hij : i = j
    · simp [hij]
    · exfalso
      by_cases hnm : ((occsOf schemas)[i]).2 = ((occsOf schemas)[j]).2
      · -- two occurrences of the same name: its total count is at least 2,
        -- and the two remaining-count suffixes differ
        have hcnt : ∀ x y, x < y → ∀ hxo : x < (occsOf schemas).length,
            ∀ hyo : y < (occsOf schemas).length,
            ((occsOf schemas)[x]).2 = ((occsOf schemas)[y]).2 →
            countName (((occsOf schemas)[x]).2) ((occsOf schemas).take x) <
                countName (((occsOf schemas)[x]).2) ((occsOf schemas).take y) ∧
              countName (((occsOf schemas)[x]).2) ((occsOf schemas).take y) <
                countName (((occsOf schemas)[x]).2) (occsOf schemas) := by
          intro x y hxy hxo hyo hxyeq
          constructor
          · exact countName_take_lt_take _ _ hxo hxy rfl
          · exact countName_take_lt _ _ hyo hxyeq.symm
        have htot : 2 ≤ countName (((occsOf schemas)[i]).2) (occsOf schemas) := by
          rcases Nat.lt_or_ge i j with hlt | hge
          · obtain ⟨h1, h2⟩ := hcnt i j hlt hio hjo hnm
            omega
          · have hlt2 : j < i := by omega
            obtain ⟨h1, h2⟩ := hcnt j i hlt2 hjo hio hnm.symm
            rw [hnm]
            omega
        have htotj : 2 ≤ countName (((occsOf schemas)[j]).2) (occsOf schemas) := by
          rw [← hnm]
          exact htot
        rw [pass_get schemas i hio hi2, if_pos htot,
          pass_get schemas j hjo hj2, if_pos htotj] at hab
        have hab2 : ((occsOf schemas)[i]).2 ++
            Nat.repr (countName (((occsOf schemas)[i]).2) (occsOf schemas) -
              countName (((occsOf schemas)[i]).2) ((occsOf schemas).take i)) =
            ((occsOf schemas)[i]).2 ++
            Nat.repr (countName (((occsOf schemas)[j]).2) (occsOf schemas) -
              countName (((occsOf schemas)[j]).2) ((occsOf schemas).take j)) := by
          rw [hnm] at hab ⊢
          exact hab
        have hrem := natRepr_inj (append_right_inj _ hab2)
        rw [← hnm] at hrem
        rcases Nat.lt_or_ge i j with hlt | hge
        · obtain ⟨h1, h2⟩ := hcnt i j hlt hio hjo hnm
          omega
        · have hlt2 : j < i := by omega
          obtain ⟨h1, h2⟩ := hcnt j i hlt2 hjo hio hnm.symm
          rw [← hnm] at h1 h2
          omega
      · -- distinct original names: their final-name pools are disjoint
        have hmem : ∀ x, ∀ hxo : x < (occsOf schemas).length,
            ∀ hx2 : x < (occsOf (resolveCollisionsPass schemas).2).length,
            ((occsOf (resolveCollisionsPass schemas).2)[x]).2 ∈
              finalNamesOf (occsOf schemas) (((occsOf schemas)[x]).2) := by
          intro x hxo hx2
          rw [pass_get schemas x hxo hx2]
          by_cases htot : 2 ≤ countName (((occsOf schemas)[x]).2) (occsOf schemas)
          · rw [if_pos htot]
            have hlt := countName_take_lt (((occsOf schemas)[x]).2)
              (occsOf schemas) hxo rfl
            exact finalNames_mem_suffix htot (by omega) (by omega)
          · rw [if_neg htot]
            exact finalNames_mem_self (by omega)
        have hmi := hmem i hio hi2
        have hmj := hmem j hjo hj2
        rw [hab] at hmi
        exact hcross ((occsOf schemas)[i]) (List.getElem_mem hio)
          ((occsOf schemas)[j]) (List.getElem_mem hjo) hnm _ hmi hmj
  · intro k hk hk2 m hm hm2
    have hklen : k < (resolveCollisionsPass schemas).2.length := by
      rw [pass_schemas_length]
      exact hk
    have hfields := pass_schema_fields schemas k hk hklen
    have hphase : ((startCollisionPhase schemas).2[k]) =
        traverseSchema ((resolveCollisionsPass schemas).1).colls
          ((resolveCollisionsPass schemas).2[k]) := by
      simp only [phase_schemas, List.getElem_map]
    have helems : ((startCollisionPhase schemas).2[k]).elements =
        ((schemas[k]).elements).map (fun e =>
          match ((resolveCollisionsPass schemas).1).colls
              ((schemas[k]).targetNamespace ++ "/" ++ e.typ) with
          | some u => { e with typ := u }
          | none => e) := by
      rw [hphase]
      show (((resolveCollisionsPass schemas).2[k]).elements).map _ = _
      rw [hfields.1, hfields.2]
    have helem : (((startCollisionPhase schemas).2[k]).elements[m]) =
        (match ((resolveCollisionsPass schemas).1).colls
            ((schemas[k]).targetNamespace ++ "/" ++
              ((schemas[k]).elements[m]).typ) with
          | some u => { (schemas[k]).elements[m] with typ := u }
          | none => (schemas[k]).elements[m]) := by
      rw [List.getElem_of_eq helems hm2]
      rw [List.getElem_map]
    constructor
    · intro j hj hj2 hocc htot
      have hkeyeq : (schemas[k]).targetNamespace ++ "/" ++
          ((schemas[k]).elements[m]).typ = keyOf ((occsOf schemas)[j]) := by
        rw [hocc]
        rfl
      have hlast : ∀ q ∈ (occsOf schemas).drop (j + 1),
          keyOf q ≠ keyOf ((occsOf schemas)[j]) := by
        intro q hq
        have hqmem : q ∈ occsOf schemas := List.mem_of_mem_drop hq
        have hqne : q ≠ (occsOf schemas)[j] := by
          intro he
          exact nodup_not_mem_drop hN hj (he ▸ hq)
        exact hkey q hqmem ((occsOf schemas)[j]) (List.getElem_mem hj) hqne
      have htotj : 2 ≤ countName (((occsOf schemas)[j]).2) (occsOf schemas) := by
        rw [hocc]
        exact htot
      have hcolls := pass_colls schemas j hj htotj hlast
      rw [helem, hkeyeq, hcolls]
      constructor
      · rw [pass_get schemas j hj hj2, if_pos htotj]
      · rfl
    · intro hkeyinj hflat
      have hnone := pass_colls_none schemas
        ((schemas[k]).targetNamespace ++ "/" ++ ((schemas[k]).elements[m]).typ)
        (by
          intro p hp hkeyp
          have hpe := hkeyinj p hp hkeyp
          have := hflat p hp hpe
          exact this)
      rw [helem, hnone]

/-- Witness for C2 on the two-namespace collection: after renaming and
traversal the declared names are pairwise distinct and the `ns2` element's
`Item` reference points at the `ns2` declaration's new name `Item1`. -/
theorem C2_witness :
    ((occsOf (resolveCollisionsPass twoNsSchemas).2).map Prod.snd).Nodup ∧
    (((startCollisionPhase twoNsSchemas).2.get ⟨1, by decide⟩).elements.get
        ⟨0, by decide⟩).typ = "Item1" := by
  have h := C2_uniqueness_amended twoNsSchemas (by decide) (by decide)
    (by decide)
  refine ⟨h.1, ?_⟩
  have h2 := (h.2 1 (by decide) (by decide) 0 (by decide) (by decide)).1 1
    (by decide) (by decide) (by decide) (by decide)
  exact h2.1.trans (by decide)

end Gowsdl
